import Mathlib

/-!
Verification of the `acl` concurrent ordered map (`TSMap.tcc`) and its
reader-writer lock (`shared_mutex.h`).

The state of the underlying `std::map<Key, Value>` is embedded as an
association list sorted strictly by key (the representation invariant of a
`std::map`, here `Sorted`).  Each `std::map` primitive used by `TSMap`
(`find`, `emplace`, `erase`, `operator[]=`, `lower_bound`) is translated to a
function on such lists, and each `TSMap` member function is translated on top
of them, following the source line by line.  The reader-writer lock, whose
method bodies live outside the translated sources, is modelled from the
specification as a labelled transition system.
-/

namespace Acl

variable {K : Type} [LinearOrder K] {V : Type}

/-- The `std::map` representation invariant: entries strictly sorted by key. -/
def Sorted (l : List (K × V)) : Prop :=
  l.Pairwise (fun a b => a.1 < b.1)

instance (l : List (K × V)) : Decidable (Sorted l) := by
  unfold Sorted; infer_instance

/-- `m_map.find(k)`: the value stored at key `k`, if any. -/
def std_find (l : List (K × V)) (k : K) : Option V :=
  match l with
  | [] => none
  | p :: rest => if p.1 = k then some p.2 else std_find rest k

/-- `m_map.emplace(k, v)`: insert `(k, v)` at its sorted position when `k` is
absent; no change when `k` is present.  The boolean is `emplace(..).second`,
true exactly when a new entry was created. -/
def std_emplace (k : K) (v : V) (l : List (K × V)) : List (K × V) × Bool :=
  match l with
  | [] => ([(k, v)], true)
  | p :: rest =>
    if k < p.1 then ((k, v) :: p :: rest, true)
    else if p.1 < k then
      let r := std_emplace k v rest
      (p :: r.1, r.2)
    else (p :: rest, false)

/-- `m_map.erase(k)`: remove the entry with key `k`, if present. -/
def std_erase (k : K) (l : List (K × V)) : List (K × V) :=
  match l with
  | [] => []
  | p :: rest => if p.1 = k then rest else p :: std_erase k rest

/-- `m_map[k] = v`: assignment through `operator[]`, which inserts the key at
its sorted position when absent and overwrites the mapped value otherwise. -/
def std_indexAssign (k : K) (v : V) (l : List (K × V)) : List (K × V) :=
  match l with
  | [] => [(k, v)]
  | p :: rest =>
    if k < p.1 then (k, v) :: p :: rest
    else if p.1 < k then p :: std_indexAssign k v rest
    else (k, v) :: rest

/-- `m_map.lower_bound(k)` as a position: the index of the first entry whose
key is not less than `k` (`¬ (p.1 < k)`, i.e. `k ≤ p.1`); the list length when
no such entry exists (the `end()` iterator). -/
def lowerBoundIdx (l : List (K × V)) (k : K) : Nat :=
  l.findIdx (fun p => decide (k ≤ p.1))

/-- `TSMap::find` (TSMap.tcc:98-108): `(value, true)` on a hit,
`(Value{}, false)` on a miss. -/
def TSMap.find [Inhabited V] (l : List (K × V)) (k : K) : V × Bool :=
  match std_find l k with
  | some v => (v, true)
  | none => (default, false)

/-- `TSMap::emplace` (TSMap.tcc:250-261): reject when `!force` and the key is
present; otherwise erase the key and emplace the new pair, returning
`.second` of the emplace. -/
def TSMap.emplace (l : List (K × V)) (k : K) (v : V) (force : Bool) :
    List (K × V) × Bool :=
  if !force && (std_find l k).isSome then (l, false)
  else std_emplace k v (std_erase k l)

/-- `TSMap::createInPlace` (TSMap.tcc:270-279): a plain `std::map::emplace`
with the value constructed from the forwarded arguments; here the constructed
value is taken as the parameter `v`. -/
def TSMap.createInPlace (l : List (K × V)) (k : K) (v : V) :
    List (K × V) × Bool :=
  std_emplace k v l

/-- `TSMap::replace` (TSMap.tcc:293-307): emplace first; when the key was
present (`!it.second`) read the previous value into `newVal`, overwrite via
`m_map[k] = v` when `force`, and return `(newVal, it.second)`. -/
def TSMap.replace [Inhabited V] (l : List (K × V)) (k : K) (v : V)
    (force : Bool) : List (K × V) × (V × Bool) :=
  if (std_emplace k v l).2 then ((std_emplace k v l).1, (v, true))
  else
    ((if force then std_indexAssign k v (std_emplace k v l).1
      else (std_emplace k v l).1),
     ((std_find (std_emplace k v l).1 k).getD default, false))

/-- `TSMap::erase` (TSMap.tcc:317-333): `false` when the key is absent;
otherwise erase and return `true` when the callback is absent or approves,
else leave the map unchanged and return `false`. -/
def TSMap.erase (l : List (K × V)) (k : K) (f : Option (K → V → Bool)) :
    List (K × V) × Bool :=
  match std_find l k with
  | none => (l, false)
  | some v =>
    match f with
    | none => (std_erase k l, true)
    | some g => if g k v then (std_erase k l, true) else (l, false)

/-- `TSMap::delete_if` (TSMap.tcc:461-476): scan in ascending order; on a
`true` from `f` erase the entry (the iterator advancing to the next entry)
and count it, otherwise step past it.  Returns the surviving map and the
count of erased entries. -/
def TSMap.delete_if (f : K → V → Bool) (l : List (K × V)) :
    List (K × V) × Nat :=
  match l with
  | [] => ([], 0)
  | p :: rest =>
    let r := TSMap.delete_if f rest
    if f p.1 p.2 then (r.1, r.2 + 1) else (p :: r.1, r.2)

/-- The shared miss path of `TSMap::findInfimum_key` (TSMap.tcc:195-202):
when the lower bound is not an exact match, fail if it is the first position,
else step one position back and return that entry. -/
def infimumKeyMiss [Inhabited K] [Inhabited V] (l : List (K × V)) (i : Nat) :
    (K × V) × Bool :=
  if i = 0 then ((default, default), false)
  else
    match l[i - 1]? with
    | some q => (q, true)
    | none => ((default, default), false)

/-- `TSMap::findInfimum_key` (TSMap.tcc:185-203): take the lower bound of
`k`; an exact match is returned outright, otherwise the predecessor of the
lower bound, with `((Key\x7b\x7d, Value\x7b\x7d), false)` when the lower bound is the
first position. -/
def TSMap.findInfimum_key [Inhabited K] [Inhabited V] (l : List (K × V))
    (k : K) : (K × V) × Bool :=
  match l[lowerBoundIdx l k]? with
  | some p =>
    if p.1 = k then (p, true) else infimumKeyMiss l (lowerBoundIdx l k)
  | none => infimumKeyMiss l (lowerBoundIdx l k)

/-- The shared miss path of `TSMap::findInfimum` (TSMap.tcc:167-174). -/
def infimumMiss [Inhabited V] (l : List (K × V)) (i : Nat) : V × Bool :=
  if i = 0 then (default, false)
  else
    match l[i - 1]? with
    | some q => (q.2, true)
    | none => (default, false)

/-- `TSMap::findInfimum` (TSMap.tcc:157-175): as `findInfimum_key` but
returning only the value. -/
def TSMap.findInfimum [Inhabited V] (l : List (K × V)) (k : K) : V × Bool :=
  match l[lowerBoundIdx l k]? with
  | some p =>
    if p.1 = k then (p.2, true) else infimumMiss l (lowerBoundIdx l k)
  | none => infimumMiss l (lowerBoundIdx l k)

/-- The specification's description of the infimum result: the last entry of
the ascending list whose key is at most `k` ("the greatest key less than or
equal to the given key"). -/
def infimumEntry (l : List (K × V)) (k : K) : Option (K × V) :=
  (l.filter (fun p => decide (p.1 ≤ k))).getLast?

/-! ### The reader-writer lock, modelled from the specification

The repository sources at hand contain only the declaration of
`acl::shared_mutex` (shared_mutex.h:22-46); the method bodies live in a
compilation unit that is not among them.  The lock is therefore modelled from
the specification as a labelled transition system over the state record
{shared_count, writer_active, writer_waiting}. -/

/-- Modelled from the spec: the state of `acl::shared_mutex` — the count of
active shared holders, whether an exclusive holder is active, and whether a
writer is pending.  (`shared_mutex.cpp` is not among the sources; §4.1 of the
specification describes the operations.) -/
structure RWState where
  readers : Nat
  writerActive : Bool
  writerWaiting : Bool
deriving DecidableEq, Repr

/-- The acquisition and release events of `acl::shared_mutex`. -/
inductive LockEvent where
  | readerAcquire
  | readerRelease
  | writerArrive
  | writerAcquire
  | writerRelease
deriving DecidableEq, Repr

/-- Modelled from the spec: one step of the lock.  `readerAcquire` is a
`lock_shared` returning to its caller — it blocks (is disabled) while an
exclusive holder is active or a writer is pending (§4.1 writer-preference);
`writerArrive` marks a writer blocked in `lock()`; `writerAcquire` is that
writer obtaining the lock once no holder remains; the releases undo the
acquisitions. -/
def rwStep (s : RWState) : LockEvent → Option RWState
  | LockEvent.readerAcquire =>
    if s.writerActive || s.writerWaiting then none
    else some { s with readers := s.readers + 1 }
  | LockEvent.readerRelease =>
    if s.readers = 0 then none
    else some { s with readers := s.readers - 1 }
  | LockEvent.writerArrive =>
    if s.writerWaiting then none
    else some { s with writerWaiting := true }
  | LockEvent.writerAcquire =>
    if s.writerWaiting && !s.writerActive && decide (s.readers = 0) then
      some { s with writerActive := true, writerWaiting := false }
    else none
  | LockEvent.writerRelease =>
    if s.writerActive then some { s with writerActive := false } else none

/-- Run a sequence of lock events; `none` when some event is disabled at the
state it is attempted in. -/
def rwRun (s : RWState) : List LockEvent → Option RWState
  | [] => some s
  | e :: es =>
    match rwStep s e with
    | some s1 => rwRun s1 es
    | none => none

/-! ### The `shared_lock` guard (shared_mutex.h:53-70)

The guard's special member functions are embedded as the record of which of
them the class declaration contains, together with the C++ rules for the
implicit generation of the move constructor. -/

/-- Which special member functions a C++ class declaration declares.  A
deleted definition still counts as user-declared. -/
structure CppSpecialMembers where
  copyCtorDeclared : Bool
  copyCtorDeleted : Bool
  copyAssignDeclared : Bool
  moveCtorDeclared : Bool
  moveAssignDeclared : Bool
  dtorDeclared : Bool
deriving DecidableEq, Repr

/-- C++ rule ([class.copy.ctor]p8): a move constructor is implicitly declared
for a class only if it has no user-declared copy constructor, copy
assignment, move assignment, or destructor. -/
def implicitMoveCtor (c : CppSpecialMembers) : Bool :=
  !c.copyCtorDeclared && !c.copyAssignDeclared && !c.moveAssignDeclared &&
    !c.dtorDeclared

/-- Whether `T u = std::move(t);` is well-formed: either a move constructor
exists (declared or implicitly generated), or overload resolution falls back
to a copy constructor that is not deleted. -/
def cppMoveConstructible (c : CppSpecialMembers) : Bool :=
  c.moveCtorDeclared || implicitMoveCtor c ||
    (c.copyCtorDeclared && !c.copyCtorDeleted)

/-- Whether `T u = t;` is well-formed for the classes considered here, in
which the copy constructor is explicitly declared. -/
def cppCopyConstructible (c : CppSpecialMembers) : Bool :=
  c.copyCtorDeclared && !c.copyCtorDeleted

/-- The special members of `acl::shared_lock` as declared at
shared_mutex.h:53-70: four converting constructors, a deleted copy
constructor, a destructor, and no move or assignment operations. -/
def shared_lock_members : CppSpecialMembers :=
  { copyCtorDeclared := true
    copyCtorDeleted := true
    copyAssignDeclared := false
    moveCtorDeclared := false
    moveAssignDeclared := false
    dtorDeclared := true }

/-- Modelled from the spec: the `shared_lock` destructor (its body is not
among the sources) releases the shared lock exactly when the guard owns it;
releasing is a `readerRelease` step of the lock it wraps. -/
def sharedLockDestruct (owns : Bool) (s : RWState) : Option RWState :=
  if owns then rwStep s LockEvent.readerRelease else some s


/-! ### Basic lemmas about the `std::map` model -/

theorem find_eq_none (l : List (K × V)) (k : K) (h : ∀ q ∈ l, q.1 ≠ k) :
    std_find l k = none := by
  induction l with
  | nil => rfl
  | cons p rest ih =>
    simp only [std_find]
    rw [if_neg (h p (List.mem_cons_self p rest))]
    exact ih (fun q hq => h q (List.mem_cons_of_mem p hq))

theorem find_some_mem {l : List (K × V)} {k : K} {w : V}
    (h : std_find l k = some w) : (k, w) ∈ l := by
  induction l with
  | nil => simp [std_find] at h
  | cons p rest ih =>
    simp only [std_find] at h
    by_cases hp : p.1 = k
    · rw [if_pos hp] at h
      obtain ⟨a, b⟩ := p
      cases hp
      cases Option.some.inj h
      exact List.mem_cons_self _ _
    · rw [if_neg hp] at h
      exact List.mem_cons_of_mem p (ih h)

theorem find_of_mem {l : List (K × V)} {k : K} {v : V} (hs : Sorted l)
    (h : (k, v) ∈ l) : std_find l k = some v := by
  induction l with
  | nil => simp at h
  | cons p rest ih =>
    rcases List.mem_cons.mp h with h1 | h1
    · cases h1
      simp [std_find]
    · have hlt : p.1 < k := by
        have := (List.pairwise_cons.mp hs).1 (k, v) h1
        exact this
      simp only [std_find]
      rw [if_neg (ne_of_lt hlt)]
      exact ih (List.pairwise_cons.mp hs).2 h1

theorem erase_of_find_none {l : List (K × V)} {k : K}
    (h : std_find l k = none) : std_erase k l = l := by
  induction l with
  | nil => rfl
  | cons p rest ih =>
    simp only [std_find] at h
    by_cases hp : p.1 = k
    · rw [if_pos hp] at h; exact absurd h (by simp)
    · rw [if_neg hp] at h
      simp only [std_erase]
      rw [if_neg hp, ih h]

theorem mem_erase {l : List (K × V)} {k : K} {q : K × V}
    (h : q ∈ std_erase k l) : q ∈ l := by
  induction l with
  | nil => simp [std_erase] at h
  | cons p rest ih =>
    simp only [std_erase] at h
    by_cases hp : p.1 = k
    · rw [if_pos hp] at h; exact List.mem_cons_of_mem p h
    · rw [if_neg hp] at h
      rcases List.mem_cons.mp h with h1 | h1
      · exact List.mem_cons.mpr (Or.inl h1)
      · exact List.mem_cons_of_mem p (ih h1)

theorem sorted_erase {l : List (K × V)} (k : K) (hs : Sorted l) :
    Sorted (std_erase k l) := by
  induction l with
  | nil => exact hs
  | cons p rest ih =>
    obtain ⟨hp, hrest⟩ := List.pairwise_cons.mp hs
    simp only [std_erase]
    by_cases hk : p.1 = k
    · rw [if_pos hk]; exact hrest
    · rw [if_neg hk]
      exact List.pairwise_cons.mpr
        ⟨fun q hq => hp q (mem_erase hq), ih hrest⟩

theorem find_erase_self {l : List (K × V)} {k : K} (hs : Sorted l) :
    std_find (std_erase k l) k = none := by
  induction l with
  | nil => rfl
  | cons p rest ih =>
    obtain ⟨hp, hrest⟩ := List.pairwise_cons.mp hs
    simp only [std_erase]
    by_cases hk : p.1 = k
    · rw [if_pos hk]
      exact find_eq_none rest k (fun q hq => (hk ▸ hp q hq).ne')
    · rw [if_neg hk]
      simp only [std_find]
      rw [if_neg hk]
      exact ih hrest

theorem find_erase_ne {l : List (K × V)} {k k' : K} (h : k' ≠ k) :
    std_find (std_erase k l) k' = std_find l k' := by
  induction l with
  | nil => rfl
  | cons p rest ih =>
    simp only [std_erase]
    by_cases hk : p.1 = k
    · rw [if_pos hk]
      simp only [std_find]
      rw [if_neg (fun hc : p.1 = k' => h (hc.symm.trans hk))]
    · rw [if_neg hk]
      simp only [std_find]
      by_cases hk' : p.1 = k'
      · rw [if_pos hk', if_pos hk']
      · rw [if_neg hk', if_neg hk', ih]

theorem mem_emplace {l : List (K × V)} {k : K} {v : V} {q : K × V}
    (h : q ∈ (std_emplace k v l).1) : q = (k, v) ∨ q ∈ l := by
  induction l with
  | nil =>
    simp only [std_emplace] at h
    left; simpa using h
  | cons p rest ih =>
    simp only [std_emplace] at h
    by_cases h1 : k < p.1
    · rw [if_pos h1] at h
      rcases List.mem_cons.mp h with h2 | h2
      · exact Or.inl h2
      · exact Or.inr h2
    · rw [if_neg h1] at h
      by_cases h2 : p.1 < k
      · rw [if_pos h2] at h
        rcases List.mem_cons.mp h with h3 | h3
        · exact Or.inr (h3 ▸ List.mem_cons_self p rest)
        · rcases ih h3 with h4 | h4
          · exact Or.inl h4
          · exact Or.inr (List.mem_cons_of_mem p h4)
      · rw [if_neg h2] at h
        exact Or.inr h

theorem sorted_emplace {l : List (K × V)} (k : K) (v : V) (hs : Sorted l) :
    Sorted (std_emplace k v l).1 := by
  induction l with
  | nil => simp [std_emplace, Sorted]
  | cons p rest ih =>
    obtain ⟨hp, hrest⟩ := List.pairwise_cons.mp hs
    simp only [std_emplace]
    by_cases h1 : k < p.1
    · rw [if_pos h1]
      refine List.pairwise_cons.mpr ⟨?_, hs⟩
      intro q hq
      rcases List.mem_cons.mp hq with h2 | h2
      · exact h2 ▸ h1
      · exact h1.trans (hp q h2)
    · rw [if_neg h1]
      by_cases h2 : p.1 < k
      · rw [if_pos h2]
        refine List.pairwise_cons.mpr ⟨?_, ih hrest⟩
        intro q hq
        rcases mem_emplace hq with h3 | h3
        · exact h3 ▸ h2
        · exact hp q h3
      · rw [if_neg h2]
        exact hs

theorem emplace_present {l : List (K × V)} {k : K} {w : V} (v : V)
    (hs : Sorted l) (h : std_find l k = some w) :
    std_emplace k v l = (l, false) := by
  induction l with
  | nil => simp [std_find] at h
  | cons p rest ih =>
    obtain ⟨hp, hrest⟩ := List.pairwise_cons.mp hs
    simp only [std_find] at h
    by_cases hpk : p.1 = k
    · simp only [std_emplace]
      rw [if_neg (by rw [hpk]; exact lt_irrefl k),
        if_neg (by rw [hpk]; exact lt_irrefl k)]
    · rw [if_neg hpk] at h
      have hmem : (k, w) ∈ rest := find_some_mem h
      have hlt : p.1 < k := hp (k, w) hmem
      simp only [std_emplace]
      rw [if_neg (not_lt.mpr hlt.le), if_pos hlt, ih hrest h]

theorem emplace_absent_inserted {l : List (K × V)} {k : K} (v : V)
    (h : std_find l k = none) : (std_emplace k v l).2 = true := by
  induction l with
  | nil => rfl
  | cons p rest ih =>
    simp only [std_find] at h
    by_cases hpk : p.1 = k
    · rw [if_pos hpk] at h; exact absurd h (by simp)
    · rw [if_neg hpk] at h
      simp only [std_emplace]
      by_cases h1 : k < p.1
      · rw [if_pos h1]
      · rw [if_neg h1, if_pos (lt_of_le_of_ne (not_lt.mp h1) hpk)]
        exact ih h

theorem emplace_inserted_find {l : List (K × V)} {k : K} {v : V}
    (h : (std_emplace k v l).2 = true) :
    std_find (std_emplace k v l).1 k = some v := by
  induction l with
  | nil => simp [std_emplace, std_find]
  | cons p rest ih =>
    simp only [std_emplace] at h ⊢
    by_cases h1 : k < p.1
    · rw [if_pos h1] at h ⊢
      simp [std_find]
    · rw [if_neg h1] at h ⊢
      by_cases h2 : p.1 < k
      · rw [if_pos h2] at h ⊢
        simp only [std_find]
        rw [if_neg (ne_of_lt h2)]
        exact ih h
      · rw [if_neg h2] at h
        simp at h

theorem emplace_not_inserted_eq {l : List (K × V)} {k : K} {v : V}
    (h : (std_emplace k v l).2 = false) : (std_emplace k v l).1 = l := by
  induction l with
  | nil => simp [std_emplace] at h
  | cons p rest ih =>
    simp only [std_emplace] at h ⊢
    by_cases h1 : k < p.1
    · rw [if_pos h1] at h; simp at h
    · rw [if_neg h1] at h ⊢
      by_cases h2 : p.1 < k
      · rw [if_pos h2] at h ⊢
        simp only at h
        rw [ih h]
      · rw [if_neg h2]

theorem find_indexAssign_self (l : List (K × V)) (k : K) (v : V) :
    std_find (std_indexAssign k v l) k = some v := by
  induction l with
  | nil => simp [std_indexAssign, std_find]
  | cons p rest ih =>
    simp only [std_indexAssign]
    by_cases h1 : k < p.1
    · rw [if_pos h1]; simp [std_find]
    · rw [if_neg h1]
      by_cases h2 : p.1 < k
      · rw [if_pos h2]
        simp only [std_find]
        rw [if_neg (ne_of_lt h2)]
        exact ih
      · rw [if_neg h2]
        simp [std_find]

theorem find_indexAssign_ne (l : List (K × V)) {k k' : K} (v : V)
    (h : k' ≠ k) : std_find (std_indexAssign k v l) k' = std_find l k' := by
  induction l with
  | nil =>
    simp only [std_indexAssign, std_find]
    rw [if_neg (fun hc : k = k' => h hc.symm)]
  | cons p rest ih =>
    simp only [std_indexAssign]
    by_cases h1 : k < p.1
    · rw [if_pos h1]
      simp only [std_find]
      rw [if_neg (fun hc : k = k' => h hc.symm)]
    · rw [if_neg h1]
      by_cases h2 : p.1 < k
      · rw [if_pos h2]
        simp only [std_find]
        by_cases h3 : p.1 = k'
        · rw [if_pos h3, if_pos h3]
        · rw [if_neg h3, if_neg h3, ih]
      · rw [if_neg h2]
        have hpk : p.1 = k := le_antisymm (not_lt.mp h1) (not_lt.mp h2)
        simp only [std_find]
        rw [if_neg (fun hc : k = k' => h hc.symm),
          if_neg (fun hc : p.1 = k' => h (hpk ▸ hc).symm)]

/-! ### Lemmas about the lower-bound / infimum search -/

theorem getLast?_cons_some {α : Type} (a : α) {l : List α} {q : α}
    (h : l.getLast? = some q) : (a :: l).getLast? = some q := by
  cases l with
  | nil => simp at h
  | cons b m => rw [List.getLast?_cons_cons]; exact h

theorem lowerBoundIdx_nil (k : K) : lowerBoundIdx ([] : List (K × V)) k = 0 :=
  rfl

theorem lowerBoundIdx_cons_head {a : K × V} (rest : List (K × V)) {k : K}
    (hk : k ≤ a.1) : lowerBoundIdx (a :: rest) k = 0 := by
  simp [lowerBoundIdx, List.findIdx_cons, hk]

theorem lowerBoundIdx_cons_tail {a : K × V} (rest : List (K × V)) {k : K}
    (hk : ¬ k ≤ a.1) :
    lowerBoundIdx (a :: rest) k = lowerBoundIdx rest k + 1 := by
  simp [lowerBoundIdx, List.findIdx_cons, hk]

theorem lowerBoundIdx_le_length (l : List (K × V)) (k : K) :
    lowerBoundIdx l k ≤ l.length :=
  List.findIdx_le_length _

theorem findInfimum_key_head [Inhabited K] [Inhabited V] (a : K × V)
    (rest : List (K × V)) (k : K) (hk : k ≤ a.1) :
    TSMap.findInfimum_key (a :: rest) k =
      if a.1 = k then (a, true) else ((default, default), false) := by
  unfold TSMap.findInfimum_key
  rw [lowerBoundIdx_cons_head rest hk, List.getElem?_cons_zero]
  by_cases he : a.1 = k
  · simp [he]
  · simp [he, infimumKeyMiss]

theorem findInfimum_key_cons [Inhabited K] [Inhabited V] (a : K × V)
    (rest : List (K × V)) (k : K) (hk : ¬ k ≤ a.1) :
    TSMap.findInfimum_key (a :: rest) k =
      (if (TSMap.findInfimum_key rest k).2 then (TSMap.findInfimum_key rest k).1
       else a, true) := by
  unfold TSMap.findInfimum_key
  rw [lowerBoundIdx_cons_tail rest hk, List.getElem?_cons_succ]
  cases hg : rest[lowerBoundIdx rest k]? with
  | some p =>
    by_cases hp : p.1 = k
    · simp [hp]
    · cases hi : lowerBoundIdx rest k with
      | zero =>
        rw [hi] at hg
        simp [hp, infimumKeyMiss, hg]
      | succ j =>
        rw [hi] at hg
        have hj1 : j + 1 < rest.length := by
          by_contra hc
          rw [List.getElem?_eq_none (not_lt.mp hc)] at hg
          exact Option.noConfusion hg
        obtain ⟨x, hx⟩ : ∃ x, rest[j]? = some x :=
          ⟨rest[j], List.getElem?_eq_getElem (by omega)⟩
        simp [hp, infimumKeyMiss, hg, hx]
  | none =>
    cases hi : lowerBoundIdx rest k with
    | zero =>
      rw [hi] at hg
      simp [infimumKeyMiss, hg]
    | succ j =>
      rw [hi] at hg
      have hlen : rest.length ≤ j + 1 := List.getElem?_eq_none_iff.mp hg
      have hle : j + 1 ≤ rest.length := hi ▸ lowerBoundIdx_le_length rest k
      obtain ⟨x, hx⟩ : ∃ x, rest[j]? = some x :=
        ⟨rest[j], List.getElem?_eq_getElem (by omega)⟩
      simp [infimumKeyMiss, hg, hx]

theorem infimumMiss_eq_key [Inhabited K] [Inhabited V] (l : List (K × V))
    (i : Nat) :
    infimumMiss l i = ((infimumKeyMiss l i).1.2, (infimumKeyMiss l i).2) := by
  unfold infimumMiss infimumKeyMiss
  by_cases h : i = 0
  · simp [h]
  · simp only [h, if_neg, if_false]
    cases l[i - 1]? <;> simp

theorem findInfimum_eq_key [Inhabited K] [Inhabited V] (l : List (K × V))
    (k : K) :
    TSMap.findInfimum l k =
      ((TSMap.findInfimum_key l k).1.2, (TSMap.findInfimum_key l k).2) := by
  unfold TSMap.findInfimum TSMap.findInfimum_key
  cases hg : l[lowerBoundIdx l k]? with
  | some p =>
    by_cases hp : p.1 = k
    · simp [hp]
    · simp [hp, infimumMiss_eq_key]
  | none => simp [infimumMiss_eq_key]

theorem findInfimum_key_eq_spec [Inhabited K] [Inhabited V]
    (l : List (K × V)) (k : K) (hs : Sorted l) :
    TSMap.findInfimum_key l k =
      match infimumEntry l k with
      | some p => (p, true)
      | none => ((default, default), false) := by
  induction l with
  | nil => rfl
  | cons a rest ih =>
    obtain ⟨ha, hrest⟩ := List.pairwise_cons.mp hs
    rcases le_or_lt k a.1 with hk | hk
    · rw [findInfimum_key_head a rest k hk]
      by_cases he : a.1 = k
      · have hfr : rest.filter (fun p => decide (p.1 ≤ k)) = [] := by
          rw [List.filter_eq_nil_iff]
          intro q hq
          simp only [decide_eq_true_eq]
          exact not_le.mpr (he ▸ ha q hq)
        unfold infimumEntry
        rw [List.filter_cons]
        simp [he, hfr]
      · have hkl : k < a.1 := lt_of_le_of_ne hk (fun hc => he hc.symm)
        have hf : (a :: rest).filter (fun p => decide (p.1 ≤ k)) = [] := by
          rw [List.filter_eq_nil_iff]
          intro q hq
          simp only [decide_eq_true_eq]
          rcases List.mem_cons.mp hq with h1 | h1
          · exact h1 ▸ not_le.mpr hkl
          · exact not_le.mpr (hkl.trans (ha q h1))
        unfold infimumEntry
        rw [hf]
        simp [he]
    · rw [findInfimum_key_cons a rest k (not_le.mpr hk)]
      have ih' := ih hrest
      cases hE : infimumEntry rest k with
      | none =>
        rw [hE] at ih'
        rw [ih']
        have hfr : rest.filter (fun p => decide (p.1 ≤ k)) = [] :=
          List.getLast?_eq_none_iff.mp hE
        unfold infimumEntry
        rw [List.filter_cons]
        simp [hk.le, hfr]
      | some q =>
        rw [hE] at ih'
        rw [ih']
        unfold infimumEntry at hE ⊢
        rw [List.filter_cons]
        simp only [hk.le, decide_eq_true_eq, if_pos]
        rw [getLast?_cons_some a hE]

/-- The found flag of the infimum search on a sorted map is false exactly when
no key is at most the query, i.e. the map is empty or every key exceeds `k`. -/
theorem findInfimum_key_found_iff [Inhabited K] [Inhabited V]
    (l : List (K × V)) (k : K) (hs : Sorted l) :
    (TSMap.findInfimum_key l k).2 = false ↔ ∀ p ∈ l, k < p.1 := by
  rw [findInfimum_key_eq_spec l k hs]
  cases hE : infimumEntry l k with
  | none =>
    simp only [true_iff]
    unfold infimumEntry at hE
    have hf := List.getLast?_eq_none_iff.mp hE
    rw [List.filter_eq_nil_iff] at hf
    intro p hp
    exact not_le.mp (by simpa using hf p hp)
  | some q =>
    simp only [Bool.true_eq_false, false_iff]
    intro hall
    have hmem : q ∈ l.filter (fun p => decide (p.1 ≤ k)) := by
      unfold infimumEntry at hE
      exact List.mem_of_mem_getLast? (by simp [hE])
    have hq := List.mem_filter.mp hmem
    exact absurd (hall q hq.1) (not_lt.mpr (by simpa using hq.2))

/-! ### Further structural lemmas used by the claim theorems -/

theorem sorted_tsemplace (l : List (K × V)) (k : K) (v : V) (force : Bool)
    (hs : Sorted l) : Sorted (TSMap.emplace l k v force).1 := by
  unfold TSMap.emplace
  by_cases h : (!force && (std_find l k).isSome) = true
  · rw [if_pos h]; exact hs
  · rw [if_neg h]; exact sorted_emplace k v (sorted_erase k hs)

theorem rw_writer_gate {s : RWState} {es : List LockEvent} {s' : RWState}
    (hw : s.writerWaiting = true) (hrun : rwRun s es = some s')
    (hnw : LockEvent.writerAcquire ∉ es) :
    LockEvent.readerAcquire ∉ es ∧ s'.writerWaiting = true := by
  induction es generalizing s with
  | nil =>
    obtain rfl : s = s' := Option.some.inj hrun
    exact ⟨List.not_mem_nil _, hw⟩
  | cons e es ih =>
    rw [rwRun] at hrun
    have hne : e ≠ LockEvent.writerAcquire :=
      fun hc => hnw (hc ▸ List.mem_cons_self e es)
    have hnw' : LockEvent.writerAcquire ∉ es :=
      fun hc => hnw (List.mem_cons_of_mem e hc)
    cases e with
    | readerAcquire => simp [rwStep, hw] at hrun
    | readerRelease =>
      by_cases hr : s.readers = 0
      · simp [rwStep, hr] at hrun
      · simp only [rwStep, hr, if_neg, if_false] at hrun
        obtain ⟨h1, h2⟩ := ih (s := { s with readers := s.readers - 1 }) hw
          (by simpa using hrun) hnw'
        exact ⟨by simp [List.mem_cons, h1], h2⟩
    | writerArrive => simp [rwStep, hw] at hrun
    | writerAcquire => exact absurd rfl hne
    | writerRelease =>
      by_cases hz : s.writerActive = true
      · simp only [rwStep, hz, if_pos, if_true] at hrun
        obtain ⟨h1, h2⟩ := ih (s := { s with writerActive := false }) hw
          (by simpa using hrun) hnw'
        exact ⟨by simp [List.mem_cons, h1], h2⟩
      · simp [rwStep, hz] at hrun

/-! ### Claim theorems -/

/-- C1 (counterexample): on the one-entry map {1 ↦ 10}, `replace(1, 20,
force=true)` does not return the pair claimed (new value 20, false): the
source keeps the previous value 10 in `newVal` before overwriting. -/
theorem replace_force_counterexample :
    TSMap.replace [((1 : Nat), (10 : Nat))] 1 20 true ≠ ([(1, 20)], (20, false)) := by
  decide

/-- C1 (amended): on a sorted map, `replace(k, v, force=true)` with `k`
present bound to `p` overwrites the stored value with `v` but returns
`(p, false)` — the previous value, not the new one — leaving every other key
untouched; with `k` absent it inserts `v` and returns `(v, true)`. -/
theorem replace_force_amended [Inhabited V] (l : List (K × V)) (k : K)
    (p v : V) (hs : Sorted l) :
    ((k, p) ∈ l →
      (TSMap.replace l k v true).2 = (p, false) ∧
      std_find (TSMap.replace l k v true).1 k = some v ∧
      ∀ k', k' ≠ k → std_find (TSMap.replace l k v true).1 k' = std_find l k') ∧
    ((∀ q ∈ l, q.1 ≠ k) →
      (TSMap.replace l k v true).2 = (v, true) ∧
      std_find (TSMap.replace l k v true).1 k = some v) := by
  constructor
  · intro hmem
    have hf : std_find l k = some p := find_of_mem hs hmem
    have hemp : std_emplace k v l = (l, false) := emplace_present v hs hf
    unfold TSMap.replace
    rw [hemp]
    simp only [Bool.false_eq_true, if_false, if_true]
    refine ⟨by simp [hf], by simp [find_indexAssign_self], ?_⟩
    intro k' hk'
    simp [find_indexAssign_ne l v hk']
  · intro habs
    have hf : std_find l k = none := find_eq_none l k habs
    have hins : (std_emplace k v l).2 = true := emplace_absent_inserted v hf
    unfold TSMap.replace
    rw [hins]
    simp only [if_true]
    exact ⟨trivial, emplace_inserted_find hins⟩

/-- C1 (witness for the amended theorem): on {1 ↦ 10}, `replace(1, 20, true)`
returns `(10, false)` and stores 20; on the empty map, `replace(2, 7, true)`
returns `(7, true)`. -/
theorem replace_force_amended_witness :
    (TSMap.replace [((1 : Nat), (10 : Nat))] 1 20 true).2 = (10, false) ∧
    std_find (TSMap.replace [((1 : Nat), (10 : Nat))] 1 20 true).1 1 = some 20 ∧
    (TSMap.replace ([] : List (Nat × Nat)) 2 7 true).2 = (7, true) := by
  have h1 := replace_force_amended [((1 : Nat), (10 : Nat))] 1 10 20 (by decide)
  have h2 := replace_force_amended ([] : List (Nat × Nat)) 2 7 7 (by decide)
  exact ⟨(h1.1 (by decide)).1, (h1.1 (by decide)).2.1, (h2.2 (by decide)).1⟩

/-- C2: on a sorted map, `findInfimum_key` returns exactly the entry with the
greatest key at most `k` (exact match won outright, otherwise the predecessor
of the lower bound) flagged `true`, and `(default, false)` when no such entry
exists; `findInfimum` is its value projection; and the found flag is `false`
exactly when the map is empty or every key exceeds `k`. -/
theorem findInfimum_spec_correct [Inhabited K] [Inhabited V]
    (l : List (K × V)) (k : K) (hs : Sorted l) :
    TSMap.findInfimum_key l k =
      (match infimumEntry l k with
       | some p => (p, true)
       | none => ((default, default), false)) ∧
    TSMap.findInfimum l k =
      ((TSMap.findInfimum_key l k).1.2, (TSMap.findInfimum_key l k).2) ∧
    ((TSMap.findInfimum_key l k).2 = false ↔ ∀ p ∈ l, k < p.1) :=
  ⟨findInfimum_key_eq_spec l k hs, findInfimum_eq_key l k,
    findInfimum_key_found_iff l k hs⟩

/-- C2 (witness): the specification's example map {1:"a", 5:"b", 10:"c"}
queried at 7, 0 and 5. -/
theorem findInfimum_spec_correct_witness :
    TSMap.findInfimum [((1 : Nat), "a"), (5, "b"), (10, "c")] 7 = ("b", true) ∧
    TSMap.findInfimum [((1 : Nat), "a"), (5, "b"), (10, "c")] 0 = ("", false) ∧
    TSMap.findInfimum [((1 : Nat), "a"), (5, "b"), (10, "c")] 5 = ("b", true) := by
  have h7 := findInfimum_spec_correct [((1 : Nat), "a"), (5, "b"), (10, "c")] 7 (by decide)
  have h0 := findInfimum_spec_correct [((1 : Nat), "a"), (5, "b"), (10, "c")] 0 (by decide)
  have h5 := findInfimum_spec_correct [((1 : Nat), "a"), (5, "b"), (10, "c")] 5 (by decide)
  refine ⟨?_, ?_, ?_⟩
  · rw [h7.2.1, h7.1]; rfl
  · rw [h0.2.1, h0.1]; rfl
  · rw [h5.2.1, h5.1]; rfl

/-- C3: in the lock model built from the specification, while a writer is
pending no `readerAcquire` step can occur in any run that has not yet let the
writer in: every such run contains zero reader acquisitions, the writer is
still pending at its end, and once the active readers have drained
(readers = 0, no active writer) the writer's acquisition step is enabled. -/
theorem writer_pending_blocks_new_readers (s : RWState) (es : List LockEvent)
    (s' : RWState) (hw : s.writerWaiting = true)
    (hrun : rwRun s es = some s')
    (hnw : LockEvent.writerAcquire ∉ es)
    (h0 : s'.readers = 0) (ha : s'.writerActive = false) :
    es.count LockEvent.readerAcquire = 0 ∧ s'.writerWaiting = true ∧
    (rwStep s' LockEvent.writerAcquire).isSome = true := by
  obtain ⟨h1, h2⟩ := rw_writer_gate hw hrun hnw
  refine ⟨List.count_eq_zero.mpr h1, h2, ?_⟩
  simp [rwStep, h2, h0, ha]

/-- C3 (witness): with one active reader and a pending writer, the reader
drains and the writer's acquisition becomes enabled; the run contains no
reader acquisition. -/
theorem writer_pending_blocks_new_readers_witness :
    ([LockEvent.readerRelease] : List LockEvent).count LockEvent.readerAcquire = 0 ∧
    (⟨0, false, true⟩ : RWState).writerWaiting = true ∧
    (rwStep (⟨0, false, true⟩ : RWState) LockEvent.writerAcquire).isSome = true :=
  writer_pending_blocks_new_readers ⟨1, false, true⟩ [LockEvent.readerRelease]
    ⟨0, false, true⟩ rfl (by decide) (by decide) rfl rfl

/-- C4: on a sorted map, `emplace(k, v1)` followed by `emplace(k, v2,
force=true)` returns `true` from the second call and leaves `k` bound to
`v2`. -/
theorem emplace_force_overwrites [Inhabited V] (l : List (K × V)) (k : K)
    (v1 v2 : V) (hs : Sorted l) :
    (TSMap.emplace (TSMap.emplace l k v1 false).1 k v2 true).2 = true ∧
    TSMap.find (TSMap.emplace (TSMap.emplace l k v1 false).1 k v2 true).1 k =
      (v2, true) := by
  have hs1 : Sorted (TSMap.emplace l k v1 false).1 :=
    sorted_tsemplace l k v1 false hs
  have he : TSMap.emplace (TSMap.emplace l k v1 false).1 k v2 true =
      std_emplace k v2 (std_erase k (TSMap.emplace l k v1 false).1) := by
    simp [TSMap.emplace]
  have hnone : std_find (std_erase k (TSMap.emplace l k v1 false).1) k = none :=
    find_erase_self hs1
  have hins := emplace_absent_inserted (l := std_erase k (TSMap.emplace l k v1 false).1)
    v2 hnone
  refine ⟨by rw [he]; exact hins, ?_⟩
  rw [he]
  simp [TSMap.find, emplace_inserted_find hins]

/-- C4 (witness): on {1 ↦ 10}, emplacing (1, 20) then (1, 30, force) yields
`true` and a map where 1 is bound to 30. -/
theorem emplace_force_overwrites_witness :
    (TSMap.emplace (TSMap.emplace [((1 : Nat), (10 : Nat))] 1 20 false).1 1 30 true).2 = true ∧
    TSMap.find (TSMap.emplace (TSMap.emplace [((1 : Nat), (10 : Nat))] 1 20 false).1 1 30 true).1 1 =
      (30, true) :=
  emplace_force_overwrites [((1 : Nat), (10 : Nat))] 1 20 30 (by decide)

/-- C5: on a sorted map in which `k` is bound to `v1`, `emplace(k, v2,
force=false)` returns `false` and leaves the map (hence the binding of `k`
and every other entry) entirely unchanged. -/
theorem emplace_noforce_rejects [Inhabited V] (l : List (K × V)) (k : K)
    (v1 v2 : V) (hs : Sorted l) (hmem : (k, v1) ∈ l) :
    TSMap.emplace l k v2 false = (l, false) ∧ TSMap.find l k = (v1, true) := by
  have hf : std_find l k = some v1 := find_of_mem hs hmem
  exact ⟨by simp [TSMap.emplace, hf], by simp [TSMap.find, hf]⟩

/-- C5 (witness): on {1 ↦ 10, 2 ↦ 20}, `emplace(1, 99, false)` returns the
unchanged map and `false`, and 1 stays bound to 10. -/
theorem emplace_noforce_rejects_witness :
    TSMap.emplace [((1 : Nat), (10 : Nat)), (2, 20)] 1 99 false =
      ([(1, 10), (2, 20)], false) ∧
    TSMap.find [((1 : Nat), (10 : Nat)), (2, 20)] 1 = (10, true) :=
  emplace_noforce_rejects [((1 : Nat), (10 : Nat)), (2, 20)] 1 10 99
    (by decide) (by decide)

/-- C6: `delete_if(fn)` erases exactly the entries on which `fn` returns true
(in one ascending scan), keeps the rest in order, and returns the number
erased; on {1,2,3,4,5} with the evenness predicate it erases {2,4}, returns
2, and leaves {1,3,5}. -/
theorem delete_if_filters (f : K → V → Bool) (l : List (K × V)) :
    TSMap.delete_if f l =
      (l.filter (fun q => !f q.1 q.2), (l.filter (fun q => f q.1 q.2)).length) ∧
    TSMap.delete_if (fun k _ => k % 2 == 0)
        [((1 : Nat), (1 : Nat)), (2, 2), (3, 3), (4, 4), (5, 5)] =
      ([(1, 1), (3, 3), (5, 5)], 2) := by
  constructor
  · induction l with
    | nil => rfl
    | cons q rest ih =>
      simp only [TSMap.delete_if, List.filter_cons]
      by_cases h : f q.1 q.2 <;> simp [h, ih]
  · decide

/-- C7: on a sorted map, `erase(k, fn)` succeeds exactly when `k` is present
and the callback is absent or approves; on success the entry is gone and no
other key is disturbed; on failure the map is returned unchanged. -/
theorem erase_callback_spec (l : List (K × V)) (k : K)
    (f : Option (K → V → Bool)) (hs : Sorted l) :
    ((TSMap.erase l k f).2 = true ↔
      ∃ v, std_find l k = some v ∧ ∀ g, f = some g → g k v = true) ∧
    ((TSMap.erase l k f).2 = true →
      std_find (TSMap.erase l k f).1 k = none ∧
      ∀ k', k' ≠ k → std_find (TSMap.erase l k f).1 k' = std_find l k') ∧
    ((TSMap.erase l k f).2 = false → (TSMap.erase l k f).1 = l) := by
  cases hfind : std_find l k with
  | none =>
    refine ⟨?_, ?_, ?_⟩
    · simp [TSMap.erase, hfind]
    · simp [TSMap.erase, hfind]
    · intro _; simp [TSMap.erase, hfind]
  | some v =>
    have herase1 : std_find (std_erase k l) k = none := find_erase_self hs
    have herase2 : ∀ k', k' ≠ k → std_find (std_erase k l) k' = std_find l k' :=
      fun k' hk' => find_erase_ne hk'
    cases f with
    | none =>
      refine ⟨?_, ?_, ?_⟩
      · simp only [TSMap.erase, hfind]
        exact ⟨fun _ => ⟨v, rfl, fun g hg => Option.noConfusion hg⟩, fun _ => trivial⟩
      · intro _
        simp only [TSMap.erase, hfind]
        exact ⟨herase1, herase2⟩
      · intro hc
        simp [TSMap.erase, hfind] at hc
    | some g =>
      by_cases hg : g k v = true
      · refine ⟨?_, ?_, ?_⟩
        · simp only [TSMap.erase, hfind, hg, if_pos]
          exact ⟨fun _ => ⟨v, rfl, fun g' hg' => Option.some.inj hg' ▸ hg⟩,
            fun _ => trivial⟩
        · intro _
          simp only [TSMap.erase, hfind, hg, if_pos]
          exact ⟨herase1, herase2⟩
        · intro hc
          simp [TSMap.erase, hfind, hg] at hc
      · refine ⟨?_, ?_, ?_⟩
        · simp only [TSMap.erase, hfind, hg, if_neg, if_false]
          constructor
          · intro hc; exact absurd hc (by simp)
          · intro ⟨w, hw, hall⟩
            obtain rfl : v = w := Option.some.inj (hfind ▸ hw)
            exact absurd (hall g rfl) hg
        · intro hc
          simp [TSMap.erase, hfind, hg] at hc
        · intro _
          simp [TSMap.erase, hfind, hg]

/-- C7 (witness): on {1 ↦ 10, 2 ↦ 20}, erasing key 1 with no callback
succeeds, removes 1 and keeps 2; a vetoing callback leaves the map unchanged
with `false`. -/
theorem erase_callback_spec_witness :
    std_find (TSMap.erase [((1 : Nat), (10 : Nat)), (2, 20)] 1 none).1 1 = none ∧
    std_find (TSMap.erase [((1 : Nat), (10 : Nat)), (2, 20)] 1 none).1 2 = some 20 ∧
    (TSMap.erase [((1 : Nat), (10 : Nat)), (2, 20)] 1 (some (fun _ _ => false))).1 =
      [(1, 10), (2, 20)] := by
  have h1 := erase_callback_spec [((1 : Nat), (10 : Nat)), (2, 20)] 1 none (by decide)
  have h2 := erase_callback_spec [((1 : Nat), (10 : Nat)), (2, 20)] 1
    (some (fun _ _ => false)) (by decide)
  exact ⟨(h1.2.1 (by decide)).1, (h1.2.1 (by decide)).2 2 (by decide),
    h2.2.2 (by decide)⟩

/-- C8: on a sorted map, `find(k)` returns the stored value with `true` when
`k` is present; when `k` is absent it returns `(default, false)`, and after
`emplace(k, v, force=false)` it returns `(v, true)`. -/
theorem find_present_absent_spec [Inhabited V] (l : List (K × V)) (k : K)
    (v : V) (hs : Sorted l) :
    ((k, v) ∈ l → TSMap.find l k = (v, true)) ∧
    ((∀ q ∈ l, q.1 ≠ k) →
      TSMap.find l k = (default, false) ∧
      (TSMap.emplace l k v false).2 = true ∧
      TSMap.find (TSMap.emplace l k v false).1 k = (v, true)) := by
  constructor
  · intro hmem
    simp [TSMap.find, find_of_mem hs hmem]
  · intro habs
    have hf : std_find l k = none := find_eq_none l k habs
    have he : TSMap.emplace l k v false = std_emplace k v (std_erase k l) := by
      simp [TSMap.emplace, hf]
    have hins : (std_emplace k v (std_erase k l)).2 = true :=
      emplace_absent_inserted v (by rw [erase_of_find_none hf]; exact hf)
    refine ⟨by simp [TSMap.find, hf], by rw [he]; exact hins, ?_⟩
    rw [he]
    simp [TSMap.find, emplace_inserted_find hins]

/-- C8 (witness): on {1 ↦ 10}, key 1 is found as (10, true); key 2 misses as
(0, false) and is found as (20, true) after `emplace(2, 20, false)`. -/
theorem find_present_absent_spec_witness :
    TSMap.find [((1 : Nat), (10 : Nat))] 1 = (10, true) ∧
    TSMap.find [((1 : Nat), (10 : Nat))] 2 = (0, false) ∧
    TSMap.find (TSMap.emplace [((1 : Nat), (10 : Nat))] 2 20 false).1 2 =
      (20, true) := by
  have hp := find_present_absent_spec [((1 : Nat), (10 : Nat))] 1 10 (by decide)
  have ha := find_present_absent_spec [((1 : Nat), (10 : Nat))] 2 20 (by decide)
  exact ⟨hp.1 (by decide), (ha.2 (by decide)).1, (ha.2 (by decide)).2.2⟩

/-- C9 (counterexample): `acl::shared_lock` declares no move operations and
its copy constructor is deleted while its destructor is user-declared, so no
move constructor is implicitly generated and move-construction is ill-formed:
the guard's ownership cannot be transferred by move, contrary to the claim. -/
theorem shared_lock_move_counterexample :
    cppMoveConstructible shared_lock_members = false := rfl

/-- C9 (amended): the `shared_lock` guard is neither copyable nor movable
(deleted copy constructor, no declared or implicitly generated move
constructor), and its destruction releases the shared lock exactly when the
guard owns it. -/
theorem shared_lock_ownership_amended (s : RWState) (h : 0 < s.readers) :
    cppCopyConstructible shared_lock_members = false ∧
    cppMoveConstructible shared_lock_members = false ∧
    sharedLockDestruct false s = some s ∧
    sharedLockDestruct true s = some { s with readers := s.readers - 1 } := by
  refine ⟨rfl, rfl, rfl, ?_⟩
  simp [sharedLockDestruct, rwStep, Nat.pos_iff_ne_zero.mp h]

/-- C9 (witness): a guard owning one of one active shared holds releases it
on destruction; a non-owning guard leaves the lock untouched. -/
theorem shared_lock_ownership_amended_witness :
    cppMoveConstructible shared_lock_members = false ∧
    sharedLockDestruct true ⟨1, false, false⟩ = some ⟨0, false, false⟩ ∧
    sharedLockDestruct false ⟨1, false, false⟩ = some ⟨1, false, false⟩ :=
  ⟨(shared_lock_ownership_amended ⟨1, false, false⟩ (by decide)).2.1,
   (shared_lock_ownership_amended ⟨1, false, false⟩ (by decide)).2.2.2,
   (shared_lock_ownership_amended ⟨1, false, false⟩ (by decide)).2.2.1⟩

/-- C10: on a sorted map in which `k` is already bound (to `w`),
`createInPlace(k, ...)` returns `false` and leaves the map entirely
unchanged — the existing value survives and no other entry is affected. -/
theorem createInPlace_present_rejects [Inhabited V] (l : List (K × V))
    (k : K) (w v : V) (hs : Sorted l) (hmem : (k, w) ∈ l) :
    TSMap.createInPlace l k v = (l, false) ∧ TSMap.find l k = (w, true) := by
  have hf : std_find l k = some w := find_of_mem hs hmem
  constructor
  · unfold TSMap.createInPlace
    exact emplace_present v hs hf
  · simp [TSMap.find, hf]

/-- C10 (witness): on {1 ↦ 10, 2 ↦ 20}, `createInPlace(2, 99)` returns the
unchanged map and `false`; 2 stays bound to 20. -/
theorem createInPlace_present_rejects_witness :
    TSMap.createInPlace [((1 : Nat), (10 : Nat)), (2, 20)] 2 99 =
      ([(1, 10), (2, 20)], false) ∧
    TSMap.find [((1 : Nat), (10 : Nat)), (2, 20)] 2 = (20, true) :=
  createInPlace_present_rejects [((1 : Nat), (10 : Nat)), (2, 20)] 2 20 99
    (by decide) (by decide)

end Acl
